import Mathlib

/-!
Verification of the `rust-gguf-tools` GGUF container codec, block quantizers
and quantizer driver.

The Rust sources are embedded shallowly:

* bytes are `Nat` values `< 256`, byte strings are `List Nat`;
* Rust `String` values are modelled by their UTF-8 byte lists
  (`String::from_utf8_lossy` is modelled by `utf8Lossy` below);
* IEEE-754 `f32`/`f64` values are modelled by their bit patterns (`Nat`);
  the quantizers' floating-point arithmetic enters only through the
  `F32Arith` parameter record because no property proved here depends on
  the numeric results of those operations, only on byte counts, wire tags
  and bit-level packing;
* signed integers are modelled by their two's-complement bit patterns;
* `BTreeMap<String, GGUFValue>` is modelled by a key-sorted association
  list (`Metadata`) with `mdInsert` / `mdLookup`;
* fallible code returns `Option` / `Except`; a Rust panic (as opposed to a
  returned `io::Error`) is modelled by a distinguished outcome.
-/

namespace GGUF

/-- Little-endian byte encoding of `n` on `w` bytes, mirroring the
`byteorder` crate's `write_u16/u32/u64` little-endian writers. -/
def leBytes : Nat → Nat → List Nat
  | 0, _ => []
  | w + 1, n => n % 256 :: leBytes w (n / 256)

/-- Two-byte little-endian encoding (`write_u16::<LittleEndian>`). -/
def u16le (n : Nat) : List Nat := leBytes 2 n

/-- Four-byte little-endian encoding (`write_u32::<LittleEndian>`). -/
def u32le (n : Nat) : List Nat := leBytes 4 n

/-- Eight-byte little-endian encoding (`write_u64::<LittleEndian>`). -/
def u64le (n : Nat) : List Nat := leBytes 8 n

/-- Little-endian value of a byte list, mirroring the `byteorder` crate's
`read_u16/u32/u64` little-endian readers and `f32::from_le_bytes`. -/
def leVal : List Nat → Nat
  | [] => 0
  | b :: bs => b + 256 * leVal bs

/-- The metadata value type of `gguf-core/src/types.rs` (`GGUFValue`).
Strings are UTF-8 byte lists, floats are IEEE-754 bit patterns, signed
integers are two's-complement bit patterns. -/
inductive GGUFValue where
  | String (s : List Nat)
  | Bool (b : Bool)
  | U8 (v : Nat)
  | I8 (v : Nat)
  | U16 (v : Nat)
  | I16 (v : Nat)
  | U32 (v : Nat)
  | I32 (v : Nat)
  | U64 (v : Nat)
  | I64 (v : Nat)
  | F32 (bits : Nat)
  | F64 (bits : Nat)
  | StringArray (items : List (List Nat))
  | Binary (data : List Nat)
  | Unknown (type_id : Nat)
deriving DecidableEq

/-- The metadata value-kind tag of `gguf-core/src/types.rs`
(`GGUFValueType`). -/
inductive GGUFValueType where
  | String
  | Array
  | Bool
  | U8
  | I8
  | U16
  | I16
  | U32
  | I32
  | U64
  | I64
  | F32
  | F64
  | StringArray
  | Binary
  | Unknown (n : Nat)
deriving DecidableEq

/-- `GGUFValueType::from_u8` of `gguf-core/src/types.rs` (lines 44-63). -/
def GGUFValueType.from_u8 (n : Nat) : GGUFValueType :=
  match n with
  | 1 => .String
  | 2 => .Array
  | 3 => .U8
  | 4 => .I8
  | 5 => .U16
  | 6 => .I16
  | 7 => .U32
  | 8 => .I32
  | 9 => .U64
  | 10 => .Bool
  | 11 => .I64
  | 12 => .F64
  | 13 => .F32
  | 14 => .StringArray
  | 15 => .Binary
  | n => .Unknown n

/-- `GGUFValueType::to_u8` of `gguf-core/src/types.rs` (lines 65-84). -/
def GGUFValueType.to_u8 : GGUFValueType → Nat
  | .String => 1
  | .Array => 2
  | .U8 => 3
  | .I8 => 4
  | .U16 => 5
  | .I16 => 6
  | .U32 => 7
  | .I32 => 8
  | .U64 => 9
  | .Bool => 10
  | .I64 => 11
  | .F64 => 12
  | .F32 => 13
  | .StringArray => 14
  | .Binary => 15
  | .Unknown n => n

/-- The kind byte and value payload emitted for one metadata value by
`write_gguf_file` in `gguf-core/src/writer.rs` (lines 28-95), with the
match arms in source order.  The kind bytes are the literals written by
that source, not `GGUFValueType.to_u8`. -/
def writeValueBytes : GGUFValue → List Nat
  | .String s => 1 :: (u64le s.length ++ s)
  | .Bool b => 10 :: [if b then 1 else 0]
  | .U64 v => 9 :: u64le v
  | .I64 v => 11 :: u64le v
  | .F64 v => 12 :: u64le v
  | .F32 v => 14 :: u32le v
  | .U8 v => 2 :: leBytes 1 v
  | .I8 v => 3 :: leBytes 1 v
  | .U16 v => 4 :: u16le v
  | .I16 v => 5 :: u16le v
  | .U32 v => 6 :: u32le v
  | .I32 v => 7 :: u32le v
  | .StringArray arr => 13 :: (u64le arr.length ++ (arr.map (fun s => u64le s.length ++ s)).flatten)
  | .Binary d => 15 :: (u64le d.length ++ d)
  | .Unknown tid => leBytes 1 tid

/-- Byte-wise lexicographic order on keys, the `Ord` instance Rust's
`BTreeMap<String, _>` iterates by. -/
def keyLt : List Nat → List Nat → Bool
  | [], [] => false
  | [], _ :: _ => true
  | _ :: _, [] => false
  | a :: as, b :: bs => if a < b then true else if b < a then false else keyLt as bs

/-- `BTreeMap<String, GGUFValue>` modelled as a key-sorted association
list; keys are the UTF-8 bytes of the Rust `String`. -/
def Metadata : Type := List (List Nat × GGUFValue)

instance : DecidableEq Metadata := by
  unfold Metadata
  infer_instance

/-- `BTreeMap::insert` on the sorted association-list model. -/
def mdInsert (k : List Nat) (v : GGUFValue) : Metadata → Metadata
  | [] => [(k, v)]
  | (k2, v2) :: rest =>
    if keyLt k k2 then (k, v) :: (k2, v2) :: rest
    else if k = k2 then (k, v) :: rest
    else (k2, v2) :: mdInsert k v rest

/-- `BTreeMap::get` on the sorted association-list model. -/
def mdLookup (k : List Nat) : Metadata → Option GGUFValue
  | [] => none
  | (k2, v) :: rest => if k = k2 then some v else mdLookup k rest

theorem mdLookup_mdInsert_self (k : List Nat) (v : GGUFValue) :
    ∀ md : Metadata, mdLookup k (mdInsert k v md) = some v := by
  intro md
  induction md with
  | nil => simp [mdInsert, mdLookup]
  | cons kv rest ih =>
    obtain ⟨k2, v2⟩ := kv
    by_cases hlt : keyLt k k2
    · simp [mdInsert, hlt, mdLookup]
    · by_cases heq : k = k2
      · subst heq
        simp [mdInsert, hlt, mdLookup]
      · simp [mdInsert, hlt, heq, mdLookup, ih]

theorem mdLookup_mdInsert_ne (k k2 : List Nat) (v : GGUFValue) (h : k2 ≠ k) :
    ∀ md : Metadata, mdLookup k2 (mdInsert k v md) = mdLookup k2 md := by
  intro md
  induction md with
  | nil => simp [mdInsert, mdLookup, h]
  | cons kv rest ih =>
    obtain ⟨k3, v3⟩ := kv
    by_cases hlt : keyLt k k3
    · simp [mdInsert, hlt, mdLookup, h]
    · by_cases heq : k = k3
      · subst heq
        simp [mdInsert, hlt, mdLookup, h]
      · simp [mdInsert, hlt, heq, mdLookup, ih]

/-- The quantization format selector of `quantize-rs/src/main.rs`
(`QuantizationType`); the `unknown` payload is the raw argument bytes. -/
inductive QFormat where
  | q4_0
  | q5_1
  | unknown (s : List Nat)
deriving DecidableEq

/-- `QuantizationType::as_str`, as UTF-8 bytes. -/
def fmtName : QFormat → List Nat
  | .q4_0 => [81, 52, 95, 48]
  | .q5_1 => [81, 53, 95, 49]
  | .unknown _ => [85, 110, 107, 110, 111, 119, 110]

/-- The UTF-8 bytes of the key string used at `quantize-rs` line 178. -/
def quantizedKey : List Nat := [113, 117, 97, 110, 116, 105, 122, 101, 100]

/-- The UTF-8 bytes of the key string used at `quantize-rs` line 180. -/
def quantFormatKey : List Nat :=
  [113, 117, 97, 110, 116, 105, 122, 97, 116, 105, 111, 110, 95, 102, 111, 114, 109, 97, 116]

/-- The UTF-8 bytes of the key string used at `quantize-rs` line 183. -/
def precisionKey : List Nat := [112, 114, 101, 99, 105, 115, 105, 111, 110]

/-- IEEE-754 double bit pattern of `1.0`, the value inserted at
`quantize-rs` line 183. -/
def f64OneBits : Nat := 0x3FF0000000000000

/-- The three metadata insertions performed by `main` in
`quantize-rs/src/main.rs` lines 177-184, in source order. -/
def injectQuantMeta (md : Metadata) (fmt : QFormat) : Metadata :=
  mdInsert precisionKey (GGUFValue.F64 f64OneBits)
    (mdInsert quantFormatKey (GGUFValue.String (fmtName fmt))
      (mdInsert quantizedKey (GGUFValue.Bool true) md))

/-- C8 (counterexample): the quantizer driver inserts a `precision` key
that the caller never supplied, so the claim that the metadata map gains
only the `quantized` and `quantization_format` entries is false already
on the empty input map. -/
theorem quantizer_adds_precision_key :
    mdLookup precisionKey (injectQuantMeta [] QFormat.q4_0) ≠ none := by decide

/-- C8 (amended): the quantizer driver changes the input metadata map
exactly by inserting the three entries `quantized = Bool true`,
`quantization_format = String (format name)` and `precision = F64 1.0`
(overwriting those keys if present); every other key keeps its previous
binding. -/
theorem quantizer_metadata_inserts (md : Metadata) (fmt : QFormat) (k : List Nat)
    (h1 : k ≠ quantizedKey) (h2 : k ≠ quantFormatKey) (h3 : k ≠ precisionKey) :
    mdLookup k (injectQuantMeta md fmt) = mdLookup k md
    ∧ mdLookup quantizedKey (injectQuantMeta md fmt) = some (GGUFValue.Bool true)
    ∧ mdLookup quantFormatKey (injectQuantMeta md fmt) = some (GGUFValue.String (fmtName fmt))
    ∧ mdLookup precisionKey (injectQuantMeta md fmt) = some (GGUFValue.F64 f64OneBits) := by
  unfold injectQuantMeta
  refine ⟨?_, ?_, ?_, ?_⟩
  · rw [mdLookup_mdInsert_ne _ _ _ h3, mdLookup_mdInsert_ne _ _ _ h2,
      mdLookup_mdInsert_ne _ _ _ h1]
  · rw [mdLookup_mdInsert_ne _ _ _ (by decide), mdLookup_mdInsert_ne _ _ _ (by decide),
      mdLookup_mdInsert_self]
  · rw [mdLookup_mdInsert_ne _ _ _ (by decide), mdLookup_mdInsert_self]
  · rw [mdLookup_mdInsert_self]

/-- C8 witness: the amended frame property instantiated on a concrete map
and an unrelated key. -/
theorem quantizer_metadata_inserts_witness :
    mdLookup [97] (injectQuantMeta [([97], GGUFValue.U64 5)] QFormat.q5_1)
        = mdLookup [97] [([97], GGUFValue.U64 5)]
    ∧ mdLookup quantizedKey (injectQuantMeta [([97], GGUFValue.U64 5)] QFormat.q5_1)
        = some (GGUFValue.Bool true)
    ∧ mdLookup quantFormatKey (injectQuantMeta [([97], GGUFValue.U64 5)] QFormat.q5_1)
        = some (GGUFValue.String (fmtName QFormat.q5_1))
    ∧ mdLookup precisionKey (injectQuantMeta [([97], GGUFValue.U64 5)] QFormat.q5_1)
        = some (GGUFValue.F64 f64OneBits) :=
  quantizer_metadata_inserts [([97], GGUFValue.U64 5)] QFormat.q5_1 [97]
    (by decide) (by decide) (by decide)

/-- C2 (code bug): the kind bytes emitted by the core writer for the
`U8`, `I8`, `U16`, `I16`, `U32`, `I32`, `F32` and `StringArray` values
disagree with the normative table (`GGUFValueType.from_u8` / `to_u8` in
the same crate); in particular a `U8` value is tagged `2`, which the
reader decodes as `Array` and skips. -/
theorem writer_kind_bytes_mismatch :
    (writeValueBytes (GGUFValue.U8 0)).head? = some 2
    ∧ (writeValueBytes (GGUFValue.I8 0)).head? = some 3
    ∧ (writeValueBytes (GGUFValue.U16 0)).head? = some 4
    ∧ (writeValueBytes (GGUFValue.I16 0)).head? = some 5
    ∧ (writeValueBytes (GGUFValue.U32 0)).head? = some 6
    ∧ (writeValueBytes (GGUFValue.I32 0)).head? = some 7
    ∧ (writeValueBytes (GGUFValue.F32 0)).head? = some 14
    ∧ (writeValueBytes (GGUFValue.StringArray [])).head? = some 13
    ∧ GGUFValueType.to_u8 GGUFValueType.U8 = 3
    ∧ GGUFValueType.from_u8 2 = GGUFValueType.Array := by decide

/-- `slice::chunks : chunks of at most `n` elements, the last one possibly
short (Rust guarantees `n > 0`; every use below has `n ∈ {2, 32}`). -/
def chunksOf (n : Nat) : List α → List (List α)
  | [] => []
  | a :: l => (a :: l.take (n - 1)) :: chunksOf n (l.drop (n - 1))
termination_by l => l.length
decreasing_by simp; omega

/-- Nibble packing of `quantize_tensor_q4_0` (`quantize-rs/src/main.rs`
lines 71-78): two quantized values per byte, low nibble first; a short
final pair contributes only the low nibble. -/
def packNibblePairs (values : List Nat) : List Nat :=
  (chunksOf 2 values).map (fun pair =>
    match pair with
    | [a, b] => (a &&& 15) ||| ((b &&& 15) <<< 4)
    | [a] => a &&& 15
    | _ => 0)

/-- The `while bits >= 8` flush loop of `quantize_tensor_q5_1`
(`quantize-rs/src/main.rs` lines 107-111): emit the low byte of the shift
accumulator while at least 8 bits are pending.  Returns the emitted bytes
and the final `(buffer, bits)` state. -/
def q5Flush : Nat → Nat → List Nat × Nat × Nat
  | buffer, bits + 8 =>
    let r := q5Flush (buffer >>> 8) bits
    ((buffer &&& 255) :: r.1, r.2.1, r.2.2)
  | buffer, bits => ([], buffer, bits)

/-- The LSB-first 5-bit packing loop of `quantize_tensor_q5_1`
(`quantize-rs/src/main.rs` lines 99-116), carrying the `(buffer, bits)`
accumulator state; the final partial byte is pushed by the
`if bits > 0` branch (a `u64`-to-`u8` cast, hence `% 256`). -/
def q5PackLoop : List Nat → Nat → Nat → List Nat
  | [], buffer, bits => if 0 < bits then [buffer % 256] else []
  | v :: vs, buffer, bits =>
    let f := q5Flush (buffer ||| (v <<< bits)) (bits + 5)
    f.1 ++ q5PackLoop vs f.2.1 f.2.2

/-- `quantize_tensor_q5_1`'s bit packing of one block of 5-bit levels. -/
def q5Pack (levels : List Nat) : List Nat := q5PackLoop levels 0 0

/-- The floating-point primitives used by the two encoders, over `f32`
bit patterns: `f32::min`, `f32::max`, the scale computations
`(max - min).max(1e-6) / 15.0` and `(max - min).max(1e-6) / 31.0`, and
the per-element level computations
`((v - zero) / scale).round().clamp(0.0, K) as u8` for `K = 15.0 / 31.0`.
No claim proved in this file depends on the numeric results of these
IEEE-754 operations — only on byte counts, wire tags and bit packing —
so the theorems quantify over every possible implementation. -/
structure F32Arith where
  fmin : Nat → Nat → Nat
  fmax : Nat → Nat → Nat
  q4Scale : Nat → Nat → Nat
  q5Scale : Nat → Nat → Nat
  q4Level : Nat → Nat → Nat → Nat
  q5Level : Nat → Nat → Nat → Nat

/-- Bit pattern of `f32::INFINITY`, the fold seed for the block minimum. -/
def f32Inf : Nat := 0x7F800000

/-- Bit pattern of `f32::NEG_INFINITY`, the fold seed for the block
maximum. -/
def f32NegInf : Nat := 0xFF800000

/-- One 32-element block of `quantize_tensor_q4_0`
(`quantize-rs/src/main.rs` lines 57-78): `(scale, zero)` header followed
by the packed nibbles. -/
def q4EncodeBlock (A : F32Arith) (chunk : List Nat) : List Nat :=
  let mn := chunk.foldl A.fmin f32Inf
  let mx := chunk.foldl A.fmax f32NegInf
  let scale := A.q4Scale mx mn
  let zeroV := mn
  let values := chunk.map (fun v => A.q4Level v zeroV scale)
  u32le scale ++ u32le zeroV ++ packNibblePairs values

/-- `quantize_tensor_q4_0` (`quantize-rs/src/main.rs` lines 53-82). -/
def quantizeTensorQ4 (A : F32Arith) (tensor : List Nat) : List Nat :=
  ((chunksOf 32 tensor).map (q4EncodeBlock A)).flatten

/-- One 32-element block of `quantize_tensor_q5_1`
(`quantize-rs/src/main.rs` lines 88-120): `(scale, zero)` header followed
by the LSB-first packed 5-bit levels. -/
def q5EncodeBlock (A : F32Arith) (chunk : List Nat) : List Nat :=
  let mn := chunk.foldl A.fmin f32Inf
  let mx := chunk.foldl A.fmax f32NegInf
  let scale := A.q5Scale mx mn
  let zeroV := mn
  let levels := chunk.map (fun v => A.q5Level v zeroV scale)
  u32le scale ++ u32le zeroV ++ q5Pack levels

/-- `quantize_tensor_q5_1` (`quantize-rs/src/main.rs` lines 84-124). -/
def quantizeTensorQ5 (A : F32Arith) (tensor : List Nat) : List Nat :=
  ((chunksOf 32 tensor).map (q5EncodeBlock A)).flatten

/-- A concrete (degenerate) instance of the floating-point primitives,
used to evaluate the encoders on explicit inputs in statements whose
truth value is independent of the instance. -/
def trivF32Arith : F32Arith :=
  ⟨fun _ _ => 0, fun _ _ => 0, fun _ _ => 0, fun _ _ => 0, fun _ _ _ => 0, fun _ _ _ => 0⟩

/-- `chunks_exact(4)` plus `f32::from_le_bytes`, as used by the quantizer
driver (`quantize-rs/src/main.rs` lines 151-154) and by `try_decode_f32`:
each complete 4-byte group becomes one `f32` bit pattern; 1-3 trailing
bytes are dropped. -/
def f32sOfBytes : List Nat → List Nat
  | b0 :: b1 :: b2 :: b3 :: rest => leVal [b0, b1, b2, b3] :: f32sOfBytes rest
  | _ => []

/-- `dims.iter().product::<u64>()`, the declared element count `N`. -/
def prodDims (dims : List Nat) : Nat := dims.foldl (fun a b => a * b) 1

/-- The in-memory tensor of `gguf-core/src/types.rs` (`GGUFTensor`):
`values` is the raw byte payload. -/
structure GGUFTensor where
  name : List Nat
  type_id : Nat
  dims : List Nat
  offset : Nat
  values : List Nat
deriving DecidableEq

/-- The per-tensor body of the quantizer driver's `map`
(`quantize-rs/src/main.rs` lines 147-174): re-read the payload as `f32`s
via complete 4-byte chunks, panic (`none`) when the float count differs
from the dims product, otherwise re-encode via the selected codec with
the new type code (`quantize_tensor`, lines 126-132; the `Unknown` arm
panics). -/
def quantizeStep (A : F32Arith) (fmt : QFormat) (t : GGUFTensor) : Option GGUFTensor :=
  let float_count := prodDims t.dims
  let floats := f32sOfBytes t.values
  if floats.length ≠ float_count then none
  else
    match fmt with
    | .q4_0 => some ⟨t.name, 100, t.dims, 0, quantizeTensorQ4 A floats⟩
    | .q5_1 => some ⟨t.name, 101, t.dims, 0, quantizeTensorQ5 A floats⟩
    | .unknown _ => none

/-- The quantizer driver's tensor traversal: the whole run panics
(`none`) as soon as one tensor's float count mismatches. -/
def quantizeAll (A : F32Arith) (fmt : QFormat) : List GGUFTensor → Option (List GGUFTensor)
  | [] => some []
  | t :: rest =>
    match quantizeStep A fmt t with
    | none => none
    | some t2 =>
      match quantizeAll A fmt rest with
      | none => none
      | some r => some (t2 :: r)

theorem f32sOfBytes_length : ∀ l : List Nat, (f32sOfBytes l).length = l.length / 4
  | [] => rfl
  | [_] => by simp [f32sOfBytes]
  | [_, _] => by simp [f32sOfBytes]
  | [_, _, _] => by simp [f32sOfBytes]
  | _ :: _ :: _ :: _ :: rest => by
    have ih := f32sOfBytes_length rest
    simp [f32sOfBytes, ih]
    omega

/-- C10: the quantizer run completes (no panic) exactly when every input
tensor's payload length, rounded down to a multiple of 4, equals 4 times
the product of its dims; the payload is decoded from complete 4-byte
chunks only, so 1-3 trailing bytes are silently dropped before the
count check. -/
theorem quantize_completes_iff (A : F32Arith) (fmt : QFormat)
    (hf : fmt = QFormat.q4_0 ∨ fmt = QFormat.q5_1) (ts : List GGUFTensor) :
    (∃ ts2, quantizeAll A fmt ts = some ts2) ↔
      ∀ t ∈ ts, 4 * (t.values.length / 4) = 4 * prodDims t.dims := by
  induction ts with
  | nil => simp [quantizeAll]
  | cons t rest ih =>
    have hstep : (∃ t2, quantizeStep A fmt t = some t2) ↔
        t.values.length / 4 = prodDims t.dims := by
      unfold quantizeStep
      rcases hf with h | h <;> subst h <;>
        by_cases hc : (f32sOfBytes t.values).length = prodDims t.dims <;>
          simp_all [f32sOfBytes_length]
    constructor
    · rintro ⟨ts2, h2⟩
      cases hq : quantizeStep A fmt t with
      | none => rw [quantizeAll, hq] at h2; exact absurd h2 (by simp)
      | some t2 =>
        rw [quantizeAll, hq] at h2
        cases hr : quantizeAll A fmt rest with
        | none => rw [hr] at h2; exact absurd h2 (by simp)
        | some r =>
          intro u hu
          rcases List.mem_cons.mp hu with h | h
          · subst h
            have := hstep.mp ⟨t2, hq⟩
            omega
          · exact (ih.mp ⟨r, hr⟩) u h
    · intro hall
      have h1 : t.values.length / 4 = prodDims t.dims := by
        have := hall t (by simp)
        omega
      obtain ⟨t2, hq⟩ := hstep.mpr h1
      obtain ⟨r, hr⟩ := ih.mpr (fun u hu => hall u (by simp [hu]))
      exact ⟨t2 :: r, by rw [quantizeAll, hq, hr]⟩

/-- C10 witness: a single F32 tensor with a 5-byte payload and `N = 1`;
the dropped trailing byte leaves exactly one 4-byte chunk, so the run
completes. -/
theorem quantize_completes_iff_witness :
    (∃ ts2, quantizeAll trivF32Arith QFormat.q4_0
        [⟨[118], 0, [1], 0, [0, 0, 0, 0, 9]⟩] = some ts2) ↔
      ∀ t ∈ [(⟨[118], 0, [1], 0, [0, 0, 0, 0, 9]⟩ : GGUFTensor)],
        4 * (t.values.length / 4) = 4 * prodDims t.dims :=
  quantize_completes_iff trivF32Arith QFormat.q4_0 (Or.inl rfl)
    [⟨[118], 0, [1], 0, [0, 0, 0, 0, 9]⟩]

theorem leBytes_length : ∀ w n : Nat, (leBytes w n).length = w
  | 0, _ => rfl
  | w + 1, n => by simp [leBytes, leBytes_length w]

theorem chunksOf_two_length (l : List Nat) :
    (chunksOf 2 l).length = (l.length + 1) / 2 := by
  match l with
  | [] => simp [chunksOf]
  | a :: l2 =>
    have ih := chunksOf_two_length (l2.drop 1)
    simp [chunksOf] at ih ⊢
    omega
termination_by l.length
decreasing_by simp; omega

theorem packNibblePairs_length (l : List Nat) :
    (packNibblePairs l).length = (l.length + 1) / 2 := by
  simp [packNibblePairs, chunksOf_two_length]

theorem q5Flush_spec : ∀ buffer bits : Nat,
    q5Flush buffer bits = (leBytes (bits / 8) buffer, buffer >>> (8 * (bits / 8)), bits % 8)
  | buffer, bits + 8 => by
    have ih := q5Flush_spec (buffer >>> 8) bits
    have h1 : (bits + 8) / 8 = bits / 8 + 1 := by omega
    have h2 : (bits + 8) % 8 = bits % 8 := by omega
    have h3 : buffer &&& 255 = buffer % 256 := by
      have := Nat.and_pow_two_sub_one_eq_mod buffer 8
      norm_num at this
      exact this
    have h4 : buffer >>> 8 = buffer / 256 := by
      have := Nat.shiftRight_eq_div_pow buffer 8
      norm_num at this
      exact this
    have h5 : (buffer >>> 8) >>> (8 * (bits / 8)) = buffer >>> (8 * (bits / 8 + 1)) := by
      rw [← Nat.shiftRight_add]
      ring_nf
    rw [h4] at ih h5
    simp only [q5Flush, h3, h4, ih, h1, h2, h5, leBytes]
  | buffer, 0 => rfl
  | buffer, 1 => rfl
  | buffer, 2 => rfl
  | buffer, 3 => rfl
  | buffer, 4 => rfl
  | buffer, 5 => rfl
  | buffer, 6 => rfl
  | buffer, 7 => rfl

theorem q5PackLoop_length : ∀ (vs : List Nat) (buffer bits : Nat), bits < 8 →
    (q5PackLoop vs buffer bits).length = (bits + 5 * vs.length + 7) / 8
  | [], buffer, bits, h => by
    by_cases h0 : 0 < bits <;> simp [q5PackLoop, h0] <;> omega
  | v :: vs, buffer, bits, h => by
    have hsp := q5Flush_spec (buffer ||| (v <<< bits)) (bits + 5)
    have ih := q5PackLoop_length vs
      ((buffer ||| v <<< bits) >>> (8 * ((bits + 5) / 8))) ((bits + 5) % 8)
      (Nat.mod_lt _ (by norm_num))
    simp only [q5PackLoop, hsp, List.length_append, leBytes_length, ih, List.length_cons]
    omega

theorem q5Pack_length (levels : List Nat) :
    (q5Pack levels).length = (5 * levels.length + 7) / 8 := by
  have := q5PackLoop_length levels 0 0 (by norm_num)
  simpa [q5Pack] using this

theorem quantizeTensorQ4_length (A : F32Arith) (v : List Nat) :
    (quantizeTensorQ4 A v).length =
      24 * (v.length / 32) + (if v.length % 32 = 0 then 0 else 8 + (v.length % 32 + 1) / 2) := by
  match v with
  | [] => simp [quantizeTensorQ4, chunksOf]
  | a :: l =>
    have ih := quantizeTensorQ4_length A (l.drop 31)
    rw [quantizeTensorQ4, chunksOf]
    rw [show quantizeTensorQ4 A (l.drop 31)
        = ((chunksOf 32 (l.drop 31)).map (q4EncodeBlock A)).flatten from rfl] at ih
    simp only [List.map_cons, List.flatten_cons, List.length_append, ih]
    have hb : (q4EncodeBlock A (a :: l.take (32 - 1))).length
        = 8 + ((a :: l.take (32 - 1)).length + 1) / 2 := by
      simp [q4EncodeBlock, packNibblePairs_length, leBytes_length, u32le]
      omega
    rw [hb]
    simp only [List.length_cons, List.length_take, List.length_drop]
    split_ifs <;> omega
termination_by v.length
decreasing_by simp; omega

theorem quantizeTensorQ5_length (A : F32Arith) (v : List Nat) :
    (quantizeTensorQ5 A v).length =
      28 * (v.length / 32)
        + (if v.length % 32 = 0 then 0 else 8 + (5 * (v.length % 32) + 7) / 8) := by
  match v with
  | [] => simp [quantizeTensorQ5, chunksOf]
  | a :: l =>
    have ih := quantizeTensorQ5_length A (l.drop 31)
    rw [quantizeTensorQ5, chunksOf]
    rw [show quantizeTensorQ5 A (l.drop 31)
        = ((chunksOf 32 (l.drop 31)).map (q5EncodeBlock A)).flatten from rfl] at ih
    simp only [List.map_cons, List.flatten_cons, List.length_append, ih]
    have hb : (q5EncodeBlock A (a :: l.take (32 - 1))).length
        = 8 + (5 * (a :: l.take (32 - 1)).length + 7) / 8 := by
      simp [q5EncodeBlock, q5Pack_length, leBytes_length, u32le]
      omega
    rw [hb]
    simp only [List.length_cons, List.length_take, List.length_drop]
    split_ifs <;> omega
termination_by v.length
decreasing_by simp; omega

/-- C3 (counterexample): a 32-element input encodes under Q4_0 to a
24-byte block (8-byte header plus 16 packed nibble bytes), not to the
40 bytes the claim states. -/
theorem q4_block32_not_40_bytes :
    (quantizeTensorQ4 trivF32Arith (List.replicate 32 0)).length ≠ 40 := by
  have h := quantizeTensorQ4_length trivF32Arith (List.replicate 32 0)
  rw [h]
  norm_num

/-- C3 (amended): for an input of `N` floats the Q4_0 encoder emits
`24·⌊N/32⌋` bytes plus, when `N mod 32 = r > 0`, a final short block of
`8 + ⌈r/2⌉` bytes (so 24 bytes, not 40, for `N = 32`); the Q5_1 encoder
emits `28·⌊N/32⌋` bytes plus, for a final short block,
`8 + ⌈5r/8⌉` bytes (so 28 bytes for `N = 32`, as claimed). -/
theorem encoder_output_lengths (A : F32Arith) (v : List Nat) :
    (quantizeTensorQ4 A v).length =
      24 * (v.length / 32) + (if v.length % 32 = 0 then 0 else 8 + (v.length % 32 + 1) / 2)
    ∧ (quantizeTensorQ5 A v).length =
      28 * (v.length / 32)
        + (if v.length % 32 = 0 then 0 else 8 + (5 * (v.length % 32) + 7) / 8) :=
  ⟨quantizeTensorQ4_length A v, quantizeTensorQ5_length A v⟩

/-- Whether a byte is a UTF-8 continuation byte (`0x80..0xBF`). -/
def contB (c : Nat) : Bool := 128 ≤ c && c < 192

/-- UTF-8 decoding with U+FFFD substitution of maximal invalid subparts,
the behavior of Rust's `String::from_utf8_lossy`: returns the decoded
code points.  Lead-byte and continuation ranges follow RFC 3629 (no
overlongs, no surrogates, max U+10FFFF); an invalid byte after a valid
prefix ends that prefix as one replacement and is reprocessed. -/
def utf8DecodeLossy : List Nat → List Nat
  | [] => []
  | b :: rest =>
    if b < 128 then b :: utf8DecodeLossy rest
    else if b < 194 then 65533 :: utf8DecodeLossy rest
    else if b < 224 then
      match rest with
      | [] => [65533]
      | c :: r =>
        if contB c then ((b - 192) * 64 + (c - 128)) :: utf8DecodeLossy r
        else 65533 :: utf8DecodeLossy (c :: r)
    else if b < 240 then
      match rest with
      | [] => [65533]
      | c :: r =>
        if (if b = 224 then decide (160 ≤ c) && decide (c < 192)
            else if b = 237 then decide (128 ≤ c) && decide (c < 160)
            else contB c) then
          match r with
          | [] => [65533]
          | d :: r2 =>
            if contB d then
              ((b - 224) * 4096 + (c - 128) * 64 + (d - 128)) :: utf8DecodeLossy r2
            else 65533 :: utf8DecodeLossy (d :: r2)
        else 65533 :: utf8DecodeLossy (c :: r)
    else if b < 245 then
      match rest with
      | [] => [65533]
      | c :: r =>
        if (if b = 240 then decide (144 ≤ c) && decide (c < 192)
            else if b = 244 then decide (128 ≤ c) && decide (c < 144)
            else contB c) then
          match r with
          | [] => [65533]
          | d :: r2 =>
            if contB d then
              match r2 with
              | [] => [65533]
              | e :: r3 =>
                if contB e then
                  ((b - 240) * 262144 + (c - 128) * 4096 + (d - 128) * 64 + (e - 128))
                    :: utf8DecodeLossy r3
                else 65533 :: utf8DecodeLossy (e :: r3)
            else 65533 :: utf8DecodeLossy (d :: r2)
        else 65533 :: utf8DecodeLossy (c :: r)
    else 65533 :: utf8DecodeLossy rest

/-- UTF-8 encoding of one code point. -/
def utf8EncodeChar (cp : Nat) : List Nat :=
  if cp < 128 then [cp]
  else if cp < 2048 then [192 + cp / 64, 128 + cp % 64]
  else if cp < 65536 then [224 + cp / 4096, 128 + cp / 64 % 64, 128 + cp % 64]
  else [240 + cp / 262144, 128 + cp / 4096 % 64, 128 + cp / 64 % 64, 128 + cp % 64]

/-- `String::from_utf8_lossy(bytes).to_string()`, as UTF-8 bytes. -/
def utf8Lossy (bs : List Nat) : List Nat :=
  ((utf8DecodeLossy bs).map utf8EncodeChar).flatten

/-- The ASCII magic `GGUF`. -/
def magicBytes : List Nat := [71, 71, 85, 70]

/-- `read_exact` of `n` bytes at absolute position `pos`: fails (an
`io::Error`) when fewer than `n` bytes remain. -/
def rdBytes (file : List Nat) (pos n : Nat) : Option (List Nat) :=
  if pos + n ≤ file.length then some ((file.drop pos).take n) else none

/-- `read_u8`. -/
def rdU8 (file : List Nat) (pos : Nat) : Option Nat := (rdBytes file pos 1).map leVal

/-- `read_u16::<LittleEndian>`. -/
def rdU16 (file : List Nat) (pos : Nat) : Option Nat := (rdBytes file pos 2).map leVal

/-- `read_u32::<LittleEndian>` (also `read_f32` / `read_i32`, which only
reinterpret the same four bytes). -/
def rdU32 (file : List Nat) (pos : Nat) : Option Nat := (rdBytes file pos 4).map leVal

/-- `read_u64::<LittleEndian>` (also `read_f64` / `read_i64`). -/
def rdU64 (file : List Nat) (pos : Nat) : Option Nat := (rdBytes file pos 8).map leVal

/-- The string loop inside the reader's `StringArray` arm
(`gguf-core/src/reader.rs` lines 55-60). -/
def readStringsLoop (file : List Nat) : Nat → Nat → Option (List (List Nat) × Nat)
  | 0, pos => some ([], pos)
  | c + 1, pos => do
    let len ← rdU64 file pos
    let buf ← rdBytes file (pos + 8) len
    let (rest, p2) ← readStringsLoop file c (pos + 8 + len)
    some (utf8Lossy buf :: rest, p2)

/-- The kind dispatch of the reader's metadata loop
(`gguf-core/src/reader.rs` lines 34-77): returns the parsed value
(`none` for the skipped `Array` / `Unknown` kinds, which read no payload
bytes) and the next position. -/
def readValueAt (file : List Nat) (pos : Nat) : GGUFValueType → Option (Option GGUFValue × Nat)
  | .String => do
    let len ← rdU64 file pos
    let buf ← rdBytes file (pos + 8) len
    some (some (.String (utf8Lossy buf)), pos + 8 + len)
  | .Bool => do
    let b ← rdU8 file pos
    some (some (.Bool (b ≠ 0)), pos + 1)
  | .U64 => do
    let v ← rdU64 file pos
    some (some (.U64 v), pos + 8)
  | .I64 => do
    let v ← rdU64 file pos
    some (some (.I64 v), pos + 8)
  | .F64 => do
    let v ← rdU64 file pos
    some (some (.F64 v), pos + 8)
  | .F32 => do
    let v ← rdU32 file pos
    some (some (.F32 v), pos + 4)
  | .U8 => do
    let v ← rdU8 file pos
    some (some (.U8 v), pos + 1)
  | .I8 => do
    let v ← rdU8 file pos
    some (some (.I8 v), pos + 1)
  | .U16 => do
    let v ← rdU16 file pos
    some (some (.U16 v), pos + 2)
  | .I16 => do
    let v ← rdU16 file pos
    some (some (.I16 v), pos + 2)
  | .U32 => do
    let v ← rdU32 file pos
    some (some (.U32 v), pos + 4)
  | .I32 => do
    let v ← rdU32 file pos
    some (some (.I32 v), pos + 4)
  | .StringArray => do
    let cnt ← rdU64 file pos
    let (items, p2) ← readStringsLoop file cnt (pos + 8)
    some (some (.StringArray items), p2)
  | .Binary => do
    let len ← rdU64 file pos
    let buf ← rdBytes file (pos + 8) len
    some (some (.Binary buf), pos + 8 + len)
  | .Array => some (none, pos)
  | .Unknown _ => some (none, pos)

/-- The reader's metadata loop (`gguf-core/src/reader.rs` lines 27-82):
read key, kind byte and value; skipped kinds insert nothing and advance
only past the kind byte. -/
def readMetaLoop (file : List Nat) : Nat → Nat → Metadata → Option (Metadata × Nat)
  | 0, pos, md => some (md, pos)
  | c + 1, pos, md => do
    let klen ← rdU64 file pos
    let keyBytes ← rdBytes file (pos + 8) klen
    let tb ← rdU8 file (pos + 8 + klen)
    let (pv, p2) ← readValueAt file (pos + 8 + klen + 1) (GGUFValueType.from_u8 tb)
    let md2 := match pv with
      | some v => mdInsert (utf8Lossy keyBytes) v md
      | none => md
    readMetaLoop file c p2 md2

/-- A parsed tensor header (`gguf-core/src/reader.rs` lines 87-103). -/
structure THeader where
  name : List Nat
  type_id : Nat
  dims : List Nat
  offset : Nat
deriving DecidableEq

/-- The dims loop of the tensor-header reader. -/
def readDimsLoop (file : List Nat) : Nat → Nat → Option (List Nat × Nat)
  | 0, pos => some ([], pos)
  | c + 1, pos => do
    let d ← rdU64 file pos
    let (rest, p2) ← readDimsLoop file c (pos + 8)
    some (d :: rest, p2)

/-- The tensor-header loop (`gguf-core/src/reader.rs` lines 87-103). -/
def readHeadersLoop (file : List Nat) : Nat → Nat → Option (List THeader × Nat)
  | 0, pos => some ([], pos)
  | c + 1, pos => do
    let nlen ← rdU64 file pos
    let nameBytes ← rdBytes file (pos + 8) nlen
    let tid ← rdU32 file (pos + 8 + nlen)
    let ndim ← rdU32 file (pos + 8 + nlen + 4)
    let (dims, p2) ← readDimsLoop file ndim (pos + 8 + nlen + 8)
    let off ← rdU64 file p2
    let (rest, p3) ← readHeadersLoop file c (p2 + 8)
    some (⟨utf8Lossy nameBytes, tid, dims, off⟩ :: rest, p3)

/-- The outcome of `read_gguf_file`: `panicked` models a Rust panic (the
debug-build behavior of the unchecked `end - offset` subtraction),
`ioError` any returned `io::Error` (bad magic, short read, ...). -/
inductive ReadResult (α : Type) where
  | panicked
  | ioError
  | ok (a : α)
deriving DecidableEq

/-- `file.seek(offset)` followed by `read_exact` of `size` bytes
(`gguf-core/src/reader.rs` lines 116-118): reading zero bytes always
succeeds (even past EOF); otherwise the read fails past EOF. -/
def sliceRead (file : List Nat) (off n : Nat) : Option (List Nat) :=
  if n = 0 then some []
  else if off + n ≤ file.length then some ((file.drop off).take n) else none

/-- The tensor-payload loop (`gguf-core/src/reader.rs` lines 105-127):
for each header, the payload end is the next header's offset (file
length for the last); `let size = end - offset` is an unchecked `u64`
subtraction, so `end < offset` panics. -/
def readBlobsLoop (file : List Nat) : List THeader → ReadResult (List GGUFTensor)
  | [] => .ok []
  | h :: rest =>
    let e := match rest with
      | [] => file.length
      | h2 :: _ => h2.offset
    if e < h.offset then .panicked
    else match sliceRead file h.offset (e - h.offset) with
      | none => .ioError
      | some vals =>
        match readBlobsLoop file rest with
        | .ok ts => .ok (⟨h.name, h.type_id, h.dims, h.offset, vals⟩ :: ts)
        | .panicked => .panicked
        | .ioError => .ioError

/-- `read_gguf_file` (`gguf-core/src/reader.rs` lines 9-130) over an
in-memory byte string: magic check, header counts, metadata loop,
tensor-header loop, then the payload loop. -/
def readGgufBytes (file : List Nat) : ReadResult (Metadata × List GGUFTensor) :=
  match rdBytes file 0 4 with
  | none => .ioError
  | some m =>
    if m ≠ magicBytes then .ioError
    else match rdU32 file 4 with
      | none => .ioError
      | some _version =>
        match rdU64 file 8 with
        | none => .ioError
        | some tc =>
          match rdU64 file 16 with
          | none => .ioError
          | some mc =>
            match readMetaLoop file mc 24 [] with
            | none => .ioError
            | some (md, p1) =>
              match readHeadersLoop file tc p1 with
              | none => .ioError
              | some (hdrs, _) =>
                match readBlobsLoop file hdrs with
                | .ok ts => .ok (md, ts)
                | .panicked => .panicked
                | .ioError => .ioError

/-- Exact `f32` bit pattern of a small integer (`v as f32` for a `u8`
value; any `Nat < 2^24` is exactly representable). -/
def f32OfByte (v : Nat) : Nat :=
  if v = 0 then 0
  else ((Nat.log2 v + 127) <<< 23) ||| ((v - 2 ^ Nat.log2 v) <<< (23 - Nat.log2 v))

/-- The writer's payload loop body (`gguf-core/src/writer.rs` lines
118-120): each element of `tensor.values` is written through
`write_f32::<LittleEndian>`.  `GGUFTensor::values` is `Vec<u8>`, so the
statement passes a byte where an `f32` is expected (it does not even
type-check without a cast); the numeric reading `*v as f32` is embedded:
four little-endian bytes of the float value of each payload byte. -/
def payloadBytes (t : GGUFTensor) : List Nat :=
  (t.values.map (fun v => u32le (f32OfByte v))).flatten

/-- One tensor header as first emitted by the writer
(`gguf-core/src/writer.rs` lines 100-112), with the `data_offset`
placeholder `0` in its last eight bytes. -/
def tensorHeaderBytes (t : GGUFTensor) : List Nat :=
  u64le t.name.length ++ t.name ++ u32le t.type_id ++ u32le t.dims.length
    ++ (t.dims.map u64le).flatten ++ u64le 0

/-- Exclusive prefix sums: `prefixSums [a, b, c] = [0, a, a + b]`. -/
def prefixSums : List Nat → List Nat
  | [] => []
  | a :: l => 0 :: (prefixSums l).map (a + ·)

/-- Overwrite `bs.length` bytes of `file` at position `pos` (the
writer's `seek` + write + `seek`-back backpatch step). -/
def patchBytes (file : List Nat) (pos : Nat) (bs : List Nat) : List Nat :=
  file.take pos ++ bs ++ file.drop (pos + bs.length)

/-- `write_gguf_file` (`gguf-core/src/writer.rs` lines 9-131): header,
metadata entries in map order, tensor headers with offset placeholders,
payloads; then each placeholder is backpatched with the absolute start
position of its tensor's payload. -/
def writeGgufBytes (md : Metadata) (tensors : List GGUFTensor) : List Nat :=
  let header := magicBytes ++ u32le 2 ++ u64le tensors.length ++ u64le md.length
  let meta := (md.map (fun kv => u64le kv.1.length ++ kv.1 ++ writeValueBytes kv.2)).flatten
  let hdrPieces := tensors.map tensorHeaderBytes
  let base := header.length + meta.length
  let positions := ((prefixSums (hdrPieces.map List.length)).zip (hdrPieces.map List.length)).map
    (fun sl => base + sl.1 + sl.2 - 8)
  let hdrRegion := hdrPieces.flatten
  let dataStart := base + hdrRegion.length
  let payloads := tensors.map payloadBytes
  let offsets := (prefixSums (payloads.map List.length)).map (fun s => dataStart + s)
  let raw := header ++ meta ++ hdrRegion ++ payloads.flatten
  (positions.zip offsets).foldl (fun f po => patchBytes f po.1 (u64le po.2)) raw

/-- C1 (code bug): writing the single metadata entry `"k" ↦ U8 7` with
no tensors and reading the file back yields an empty metadata map, not
the original pair: the writer tags the `U8` value with kind byte 2,
which the reader decodes as `Array` and skips. -/
theorem write_read_loses_u8_metadata :
    readGgufBytes (writeGgufBytes [([107], GGUFValue.U8 7)] []) = ReadResult.ok ([], [])
    ∧ ([([107], GGUFValue.U8 7)] : Metadata) ≠ ([] : Metadata) := by
  constructor
  · decide
  · decide

/-- A container whose first metadata entry has kind byte `Array` (2)
followed by eight payload bytes (an empty array's element count), and
whose second entry is `"b" ↦ Bool(true)`:
magic, version 2, 0 tensors, 2 metadata entries;
entry 1: key `"a"`, kind 2, payload `u64le 0`;
entry 2: key `"b"`, kind 10, value 1. -/
def arrayDemoFile : List Nat :=
  magicBytes ++ u32le 2 ++ u64le 0 ++ u64le 2
    ++ u64le 1 ++ [97] ++ [2] ++ u64le 0
    ++ u64le 1 ++ [98] ++ [10] ++ [1]

/-- C5 (counterexample): after skipping the `Array` entry the reader
resumes inside that entry's payload bytes instead of after them, so the
following well-formed `Bool` entry is misparsed and the whole read fails
instead of returning `{"b": Bool(true)}`. -/
theorem reader_array_payload_misparse :
    readGgufBytes arrayDemoFile = ReadResult.ioError := by decide

/-- C5 (amended): on an `Array` kind byte the reader inserts nothing and
does not fail at that entry, but it resumes parsing at the byte
immediately after the kind byte, consuming none of the array value's
payload; subsequent entries therefore parse correctly only when the
array value occupies zero bytes on the wire. -/
theorem reader_array_skip_step (file : List Nat) (c pos : Nat) (md : Metadata)
    (klen : Nat) (key : List Nat)
    (h1 : rdU64 file pos = some klen)
    (h2 : rdBytes file (pos + 8) klen = some key)
    (h3 : rdU8 file (pos + 8 + klen) = some 2) :
    readMetaLoop file (c + 1) pos md = readMetaLoop file c (pos + 8 + klen + 1) md := by
  simp only [readMetaLoop, h1, h2, h3, Option.bind_eq_bind, Option.some_bind]
  rfl

/-- A nine-byte metadata block: an empty key, kind byte `Array`, no
further bytes. -/
def skipDemoFile : List Nat := u64le 0 ++ [2]

/-- C5 witness: the skip step on a concrete file — one `Array`-kind
entry is skipped without failing and parsing resumes right after the
kind byte (position 9). -/
theorem reader_array_skip_step_witness :
    readMetaLoop skipDemoFile 1 0 [] = readMetaLoop skipDemoFile 0 9 [] :=
  reader_array_skip_step skipDemoFile 0 0 [] 0 [] (by decide) (by decide) (by decide)

/-- The `data_offset` of tensor `i` (0 for an out-of-range index). -/
def hdrOffset (hdrs : List THeader) (i : Nat) : Nat :=
  match hdrs[i]? with
  | some h => h.offset
  | none => 0

/-- The payload end used for tensor `i` by the reader's payload loop:
the next tensor's offset, or the file length for the last tensor. -/
def hdrEnd (file : List Nat) (hdrs : List THeader) (i : Nat) : Nat :=
  match hdrs[i + 1]? with
  | some h => h.offset
  | none => file.length

/-- Tensor `i`'s payload read succeeds: no underflow, and the slice is
in bounds (a zero-length read succeeds even past EOF). -/
def blobReadOk (file : List Nat) (hdrs : List THeader) (i : Nat) : Prop :=
  hdrOffset hdrs i ≤ hdrEnd file hdrs i
    ∧ (hdrOffset hdrs i = hdrEnd file hdrs i ∨ hdrEnd file hdrs i ≤ file.length)

theorem hdrOffset_cons_succ (h : THeader) (rest : List THeader) (i : Nat) :
    hdrOffset (h :: rest) (i + 1) = hdrOffset rest i := by
  simp [hdrOffset]

theorem hdrEnd_cons_succ (file : List Nat) (h : THeader) (rest : List THeader) (i : Nat) :
    hdrEnd file (h :: rest) (i + 1) = hdrEnd file rest i := by
  simp [hdrEnd]

theorem blobReadOk_cons_succ (file : List Nat) (h : THeader) (rest : List THeader) (i : Nat) :
    blobReadOk file (h :: rest) (i + 1) ↔ blobReadOk file rest i := by
  simp [blobReadOk, hdrOffset_cons_succ, hdrEnd_cons_succ]

theorem hdrOffset_cons_zero (h : THeader) (rest : List THeader) :
    hdrOffset (h :: rest) 0 = h.offset := by
  simp [hdrOffset]

theorem hdrEnd_cons_nil (file : List Nat) (h : THeader) :
    hdrEnd file [h] 0 = file.length := by
  simp [hdrEnd]

theorem hdrEnd_cons_cons (file : List Nat) (h h2 : THeader) (r : List THeader) :
    hdrEnd file (h :: h2 :: r) 0 = h2.offset := by
  simp [hdrEnd]

theorem readBlobsLoop_cons (file : List Nat) (h : THeader) (rest : List THeader) :
    readBlobsLoop file (h :: rest) =
      (if hdrEnd file (h :: rest) 0 < h.offset then ReadResult.panicked
       else match sliceRead file h.offset (hdrEnd file (h :: rest) 0 - h.offset) with
        | none => ReadResult.ioError
        | some vals =>
          match readBlobsLoop file rest with
          | .ok ts => ReadResult.ok (⟨h.name, h.type_id, h.dims, h.offset, vals⟩ :: ts)
          | .panicked => ReadResult.panicked
          | .ioError => ReadResult.ioError) := by
  cases rest with
  | nil => simp [readBlobsLoop, hdrEnd_cons_nil]
  | cons h2 r => simp [readBlobsLoop, hdrEnd_cons_cons]

theorem sliceRead_some_iff (file : List Nat) (off e : Nat) (hle : off ≤ e) :
    (∃ v, sliceRead file off (e - off) = some v) ↔ (off = e ∨ e ≤ file.length) := by
  unfold sliceRead
  by_cases hz : e - off = 0
  · simp [hz]; omega
  · rw [if_neg hz]
    by_cases hin : off + (e - off) ≤ file.length
    · simp [hin]; omega
    · simp [hin]; omega

theorem hdrOffset_le_length_of_all (file : List Nat) :
    ∀ rest : List THeader,
      (∀ i, i < rest.length → hdrOffset rest i ≤ hdrEnd file rest i) →
      ∀ i, i < rest.length → hdrOffset rest i ≤ file.length := by
  intro rest
  induction rest with
  | nil => intro _ i hi; simp at hi
  | cons h r2 ih =>
    intro hall i hi
    have hshift : ∀ j, j < r2.length → hdrOffset r2 j ≤ hdrEnd file r2 j := by
      intro j hj
      have hx := hall (j + 1) (by simp; omega)
      rwa [hdrOffset_cons_succ, hdrEnd_cons_succ] at hx
    cases i with
    | succ j =>
      rw [hdrOffset_cons_succ]
      exact ih hshift j (by simp at hi; omega)
    | zero =>
      have h0 := hall 0 (by simp)
      cases r2 with
      | nil => rwa [hdrEnd_cons_nil] at h0
      | cons h3 r3 =>
        have h3le : hdrOffset (h3 :: r3) 0 ≤ file.length := ih hshift 0 (by simp)
        rw [hdrEnd_cons_cons] at h0
        rw [hdrOffset_cons_zero] at h0 ⊢
        rw [hdrOffset_cons_zero] at h3le
        omega

/-- C9 (amended): the payload loop returns `Ok` exactly when every
tensor's `data_offset` is at most its payload end — i.e. the offsets are
non-decreasing and the last offset is at most the file length; it panics
— the unchecked `end - offset` underflow — exactly when the first tensor
whose payload read is not satisfied has `end < offset`, all earlier
payload reads having succeeded.  (A file with non-monotone offsets whose
first anomaly is an out-of-bounds read instead returns an `Io` error.) -/
theorem blob_phase_outcomes (file : List Nat) (hdrs : List THeader) :
    ((∃ ts, readBlobsLoop file hdrs = ReadResult.ok ts) ↔
      ∀ i, i < hdrs.length → hdrOffset hdrs i ≤ hdrEnd file hdrs i)
    ∧ (readBlobsLoop file hdrs = ReadResult.panicked ↔
      ∃ i, i < hdrs.length ∧ hdrEnd file hdrs i < hdrOffset hdrs i
        ∧ ∀ j, j < i → blobReadOk file hdrs j) := by
  induction hdrs with
  | nil =>
    refine ⟨⟨fun _ i hi => by simp at hi, fun _ => ⟨[], rfl⟩⟩, ?_, ?_⟩
    · intro hcontra; simp [readBlobsLoop] at hcontra
    · rintro ⟨i, hi, _⟩; simp at hi
  | cons h rest ih =>
    have hcons := readBlobsLoop_cons file h rest
    by_cases hp : hdrEnd file (h :: rest) 0 < h.offset
    · -- underflow at the first tensor: panic
      rw [if_pos hp] at hcons
      constructor
      · constructor
        · rintro ⟨ts, hts⟩
          rw [hcons] at hts
          exact absurd hts (by simp)
        · intro hall
          have := hall 0 (by simp)
          rw [hdrOffset_cons_zero] at this
          omega
      · constructor
        · intro _
          exact ⟨0, by simp, by rwa [hdrOffset_cons_zero], fun j hj => by omega⟩
        · intro _
          exact hcons
    · rw [if_neg hp] at hcons
      have hle : h.offset ≤ hdrEnd file (h :: rest) 0 := Nat.le_of_not_lt hp
      cases hsr : sliceRead file h.offset (hdrEnd file (h :: rest) 0 - h.offset) with
      | none =>
        rw [hsr] at hcons
        have hnotok : ¬ blobReadOk file (h :: rest) 0 := by
          intro hok
          rcases hok with ⟨_, hcase⟩
          rw [hdrOffset_cons_zero] at hcase
          have := (sliceRead_some_iff file h.offset (hdrEnd file (h :: rest) 0) hle).mpr hcase
          rw [hsr] at this
          exact absurd this (by simp)
        constructor
        · constructor
          · rintro ⟨ts, hts⟩
            rw [hcons] at hts
            exact absurd hts (by simp)
          · intro hall
            exfalso
            apply hnotok
            refine ⟨by rwa [hdrOffset_cons_zero], ?_⟩
            rw [hdrOffset_cons_zero]
            right
            cases hr : rest with
            | nil =>
              subst hr
              simp [hdrEnd_cons_nil]
            | cons h2 r2 =>
              subst hr
              rw [hdrEnd_cons_cons]
              have hshift : ∀ j, j < (h2 :: r2).length →
                  hdrOffset (h2 :: r2) j ≤ hdrEnd file (h2 :: r2) j := by
                intro j hj
                have hx := hall (j + 1) (by simp only [List.length_cons] at hj ⊢; omega)
                rwa [hdrOffset_cons_succ, hdrEnd_cons_succ] at hx
              have hx := hdrOffset_le_length_of_all file (h2 :: r2) hshift 0 (by simp)
              rwa [hdrOffset_cons_zero] at hx
        · constructor
          · intro hcontra
            rw [hcons] at hcontra
            exact absurd hcontra (by simp)
          · rintro ⟨i, hi, hlt, hgood⟩
            exfalso
            cases i with
            | zero =>
              rw [hdrOffset_cons_zero] at hlt
              omega
            | succ j =>
              exact hnotok (hgood 0 (by omega))
      | some vals =>
        rw [hsr] at hcons
        have hok0 : blobReadOk file (h :: rest) 0 := by
          refine ⟨by rwa [hdrOffset_cons_zero], ?_⟩
          rw [hdrOffset_cons_zero]
          exact (sliceRead_some_iff file h.offset (hdrEnd file (h :: rest) 0) hle).mp ⟨vals, hsr⟩
        constructor
        · constructor
          · rintro ⟨ts, hts⟩
            rw [hcons] at hts
            intro i hi
            cases hrl : readBlobsLoop file rest with
            | ok ts2 =>
              have hallrest := ih.1.mp ⟨ts2, hrl⟩
              cases i with
              | zero => rw [hdrOffset_cons_zero]; exact hle
              | succ j =>
                rw [hdrOffset_cons_succ, hdrEnd_cons_succ]
                exact hallrest j (by simp at hi; omega)
            | panicked => rw [hrl] at hts; exact absurd hts (by simp)
            | ioError => rw [hrl] at hts; exact absurd hts (by simp)
          · intro hall
            have hshift : ∀ j, j < rest.length → hdrOffset rest j ≤ hdrEnd file rest j := by
              intro j hj
              have hx := hall (j + 1) (by simp; omega)
              rwa [hdrOffset_cons_succ, hdrEnd_cons_succ] at hx
            obtain ⟨ts2, hts2⟩ := ih.1.mpr hshift
            rw [hcons, hts2]
            exact ⟨_, rfl⟩
        · rw [hcons]
          cases hrl : readBlobsLoop file rest with
          | ok ts2 =>
            constructor
            · intro hcontra; exact absurd hcontra (by simp)
            · rintro ⟨i, hi, hlt, hgood⟩
              exfalso
              have hallrest := ih.1.mp ⟨ts2, hrl⟩
              cases i with
              | zero =>
                rw [hdrOffset_cons_zero] at hlt
                omega
              | succ j =>
                rw [hdrOffset_cons_succ, hdrEnd_cons_succ] at hlt
                have := hallrest j (by simp at hi; omega)
                omega
          | ioError =>
            constructor
            · intro hcontra; exact absurd hcontra (by simp)
            · rintro ⟨i, hi, hlt, hgood⟩
              have hpan : readBlobsLoop file rest = ReadResult.panicked := by
                apply ih.2.mpr
                cases i with
                | zero =>
                  rw [hdrOffset_cons_zero] at hlt
                  omega
                | succ j =>
                  refine ⟨j, by simp at hi; omega, ?_, ?_⟩
                  · rwa [hdrOffset_cons_succ, hdrEnd_cons_succ] at hlt
                  · intro j2 hj2
                    have := hgood (j2 + 1) (by omega)
                    rwa [blobReadOk_cons_succ] at this
              rw [hrl] at hpan
              exact absurd hpan (by simp)
          | panicked =>
            constructor
            · intro _
              obtain ⟨j, hj, hlt, hgood⟩ := ih.2.mp hrl
              refine ⟨j + 1, by simp; omega, ?_, ?_⟩
              · rwa [hdrOffset_cons_succ, hdrEnd_cons_succ]
              · intro j2 hj2
                cases j2 with
                | zero => exact hok0
                | succ j3 =>
                  rw [blobReadOk_cons_succ]
                  exact hgood j3 (by omega)
            · intro _; rfl

/-- A container with three zero-dimensional tensors `"a"`, `"b"`, `"c"`
whose declared offsets are 200, 230, 50 — not non-decreasing — in a
99-byte file. -/
def offsetsDemoFile : List Nat :=
  magicBytes ++ u32le 2 ++ u64le 3 ++ u64le 0
    ++ (u64le 1 ++ [97] ++ u32le 0 ++ u32le 0 ++ u64le 200)
    ++ (u64le 1 ++ [98] ++ u32le 0 ++ u32le 0 ++ u64le 230)
    ++ (u64le 1 ++ [99] ++ u32le 0 ++ u32le 0 ++ u64le 50)

/-- C9 (counterexample): the claim predicts a panic for every file whose
offsets are not non-decreasing, but on this file the first tensor's read
(30 bytes at offset 200, past the 99-byte EOF) fails before the
decreasing pair 230 > 50 is ever subtracted, so the reader returns a
graceful `Io` error. -/
theorem nonmonotone_offsets_io_error :
    readGgufBytes offsetsDemoFile = ReadResult.ioError := by decide

/-- The error type of `gguf-core/src/decoder.rs` (`DecodeError`; the
`Io` variant is unreachable for in-memory cursors). -/
inductive DecErr where
  | invalidScale
  | invalidBlock
  | unexpectedEOF
deriving DecidableEq

/-- One decoded element of a quantized tensor: the block's scale and
zero `f32` bit patterns and the element's quantization level.  The
source pushes the float `scale * level + zero`; this triple carries the
exact inputs of that product, on which no claim's truth depends. -/
structure DecElem where
  scaleBits : Nat
  zeroBits : Nat
  level : Nat
deriving DecidableEq

/-- `!scale.is_finite() || scale == 0.0` on the `f32` bit pattern:
non-finite means exponent bits all ones; zero means `±0`. -/
def badScaleBits (s : Nat) : Bool :=
  ((s >>> 23) &&& 255 == 255) || (s &&& 0x7FFFFFFF == 0)

/-- The nibble stream of one Q4_0 block (`gguf-core/src/decoder.rs`
lines 57-69): for each packed byte, low nibble then high nibble. -/
def q4Nibbles (packed : List Nat) : List Nat :=
  (packed.map (fun b => [b &&& 15, (b >>> 4) &&& 15])).flatten

/-- The `while decoded.len() < expected` loop of `try_decode_q4_0`
(`gguf-core/src/decoder.rs` lines 39-70): per block, check 8 header
bytes remain, read `(scale, zero)`, validate the scale, read up to 16
packed bytes and emit nibbles bounded by the remaining element count. -/
def q4Loop (expected : Nat) (rem : List Nat) (out : List DecElem) : Except DecErr (List DecElem) :=
  if expected ≤ out.length then .ok out
  else if rem.length < 8 then .error .unexpectedEOF
  else
    let scale := leVal (rem.take 4)
    let zeroV := leVal ((rem.drop 4).take 4)
    if badScaleBits scale then .error .invalidScale
    else
      let rest := rem.drop 8
      let packed := rest.take 16
      let elems := ((q4Nibbles packed).take (expected - out.length)).map
        (fun l => ⟨scale, zeroV, l⟩)
      q4Loop expected (rest.drop 16) (out ++ elems)
termination_by rem.length
decreasing_by simp; omega

/-- `try_decode_q4_0` (`gguf-core/src/decoder.rs` lines 34-73). -/
def tryDecodeQ4 (bytes dims : List Nat) : Except DecErr (List DecElem) :=
  q4Loop (prodDims dims) bytes []

/-- The inner `while bits >= 5` extraction of `try_decode_q5_1`
(`gguf-core/src/decoder.rs` lines 106-115): emit `acc & 0x1F`, shift,
and break once 32 values have been produced. -/
def q5Extract : Nat → Nat → List Nat → Nat × Nat × List Nat
  | acc, bits + 5, values =>
    let v := acc &&& 31
    let values2 := values ++ [v]
    if 32 ≤ values2.length then (acc >>> 5, bits, values2)
    else q5Extract (acc >>> 5) bits values2
  | acc, bits, values => (acc, bits, values)

/-- The byte loop of `try_decode_q5_1`'s LSB-first accumulator
(`gguf-core/src/decoder.rs` lines 102-116). -/
def q5UnpackLoop : List Nat → Nat → Nat → List Nat → List Nat
  | [], _, _, values => values
  | b :: rest, acc, bits, values =>
    let s := q5Extract (acc ||| (b <<< bits)) (bits + 8) values
    q5UnpackLoop rest s.1 s.2.1 s.2.2

/-- The 5-bit values extracted from one block's packed bytes by
`try_decode_q5_1`. -/
def q5Unpack (packed : List Nat) : List Nat := q5UnpackLoop packed 0 0 []

/-- The `while decoded.len() < expected` loop of `try_decode_q5_1`
(`gguf-core/src/decoder.rs` lines 80-124). -/
def q5Loop (expected : Nat) (rem : List Nat) (out : List DecElem) : Except DecErr (List DecElem) :=
  if expected ≤ out.length then .ok out
  else if rem.length < 8 then .error .unexpectedEOF
  else
    let scale := leVal (rem.take 4)
    let zeroV := leVal ((rem.drop 4).take 4)
    if badScaleBits scale then .error .invalidScale
    else
      let rest := rem.drop 8
      let packed := rest.take 20
      let elems := ((q5Unpack packed).take (expected - out.length)).map
        (fun l => ⟨scale, zeroV, l⟩)
      q5Loop expected (rest.drop 20) (out ++ elems)
termination_by rem.length
decreasing_by simp; omega

/-- `try_decode_q5_1` (`gguf-core/src/decoder.rs` lines 75-127). -/
def tryDecodeQ5 (bytes dims : List Nat) : Except DecErr (List DecElem) :=
  q5Loop (prodDims dims) bytes []

/-- `try_decode_f32` (`gguf-core/src/decoder.rs` lines 19-33): reject a
length not divisible by 4 (`InvalidBlock`), then a length below `4·N`
(`UnexpectedEOF`), then decode every complete 4-byte chunk. -/
def tryDecodeF32 (bytes dims : List Nat) : Except DecErr (List Nat) :=
  if bytes.length % 4 ≠ 0 then .error .invalidBlock
  else if bytes.length < prodDims dims * 4 then .error .unexpectedEOF
  else .ok (f32sOfBytes bytes)

/-- C4 (counterexample): an 8-byte payload with `dims = [1]` decodes
successfully to two floats, not to exactly `N = 1` — the trailing bytes
beyond `4·N` are decoded, not ignored. -/
theorem f32_decode_trailing_not_ignored :
    (tryDecodeF32 (List.replicate 8 0) [1]).map List.length = Except.ok 2 ∧ (2 : Nat) ≠ 1 :=
  ⟨rfl, by decide⟩

/-- C4 (amended): F32 decode fails with `InvalidBlock` when the payload
length is not a multiple of 4, with `UnexpectedEOF` when it is below
`4·N`, and otherwise succeeds producing exactly `len / 4` floats — equal
to `N` only when `len = 4·N`; trailing bytes beyond `4·N` are decoded
too, not ignored. -/
theorem f32_decode_length_spec (bytes dims : List Nat) :
    (tryDecodeF32 bytes dims).map List.length =
      (if bytes.length % 4 ≠ 0 then Except.error DecErr.invalidBlock
       else if bytes.length < prodDims dims * 4 then Except.error DecErr.unexpectedEOF
       else Except.ok (bytes.length / 4)) := by
  unfold tryDecodeF32
  by_cases h1 : bytes.length % 4 ≠ 0
  · simp [h1, Except.map]
  · by_cases h2 : bytes.length < prodDims dims * 4
    · simp [h1, h2, Except.map]
    · simp [h1, h2, Except.map, f32sOfBytes_length]

/-- The scale fields (as `f32` bit patterns) of the block headers that
`try_decode_q4_0` reaches: collection stops when `N` elements have been
produced, when fewer than 8 header bytes remain, or right after a
non-finite-or-zero scale.  This formalizes the claim's notion of "the
block headers reached before `N` elements are produced". -/
def q4Reached (expected : Nat) (rem : List Nat) (count : Nat) : List Nat :=
  if expected ≤ count then []
  else if rem.length < 8 then []
  else
    let scale := leVal (rem.take 4)
    if badScaleBits scale then [scale]
    else
      let rest := rem.drop 8
      let emitted := min (expected - count) (q4Nibbles (rest.take 16)).length
      scale :: q4Reached expected (rest.drop 16) (count + emitted)
termination_by rem.length
decreasing_by simp; omega

/-- The scale fields of the block headers that `try_decode_q5_1`
reaches, analogously to `q4Reached`. -/
def q5Reached (expected : Nat) (rem : List Nat) (count : Nat) : List Nat :=
  if expected ≤ count then []
  else if rem.length < 8 then []
  else
    let scale := leVal (rem.take 4)
    if badScaleBits scale then [scale]
    else
      let rest := rem.drop 8
      let emitted := min (expected - count) (q5Unpack (rest.take 20)).length
      scale :: q5Reached expected (rest.drop 20) (count + emitted)
termination_by rem.length
decreasing_by simp; omega

set_option maxRecDepth 8000 in
theorem q4Loop_invalidScale (expected : Nat) (rem : List Nat) (out : List DecElem) :
    (q4Loop expected rem out = Except.error DecErr.invalidScale ↔
      ∃ s ∈ q4Reached expected rem out.length, badScaleBits s) := by
  by_cases h1 : expected ≤ out.length
  · rw [q4Loop, q4Reached]
    simp [h1]
  · by_cases h2 : rem.length < 8
    · rw [q4Loop, q4Reached]
      simp [h1, h2]
    · by_cases h3 : badScaleBits (leVal (rem.take 4))
      · rw [q4Loop, q4Reached]
        simp [h1, h2, h3]
      · have ih := q4Loop_invalidScale expected ((rem.drop 8).drop 16)
          (out ++ ((q4Nibbles ((rem.drop 8).take 16)).take (expected - out.length)).map
            (fun l => ⟨leVal (rem.take 4), leVal ((rem.drop 4).take 4), l⟩))
        rw [q4Loop, q4Reached]
        dsimp only
        rw [if_neg h1, if_neg h1, if_neg h2, if_neg h2, if_neg h3, if_neg h3]
        rw [ih]
        simp [List.length_append, List.length_take, h3]
termination_by rem.length
decreasing_by simp; omega

set_option maxRecDepth 8000 in
theorem q5Loop_invalidScale (expected : Nat) (rem : List Nat) (out : List DecElem) :
    (q5Loop expected rem out = Except.error DecErr.invalidScale ↔
      ∃ s ∈ q5Reached expected rem out.length, badScaleBits s) := by
  by_cases h1 : expected ≤ out.length
  · rw [q5Loop, q5Reached]
    simp [h1]
  · by_cases h2 : rem.length < 8
    · rw [q5Loop, q5Reached]
      simp [h1, h2]
    · by_cases h3 : badScaleBits (leVal (rem.take 4))
      · rw [q5Loop, q5Reached]
        simp [h1, h2, h3]
      · have ih := q5Loop_invalidScale expected ((rem.drop 8).drop 20)
          (out ++ ((q5Unpack ((rem.drop 8).take 20)).take (expected - out.length)).map
            (fun l => ⟨leVal (rem.take 4), leVal ((rem.drop 4).take 4), l⟩))
        rw [q5Loop, q5Reached]
        dsimp only
        rw [if_neg h1, if_neg h1, if_neg h2, if_neg h2, if_neg h3, if_neg h3]
        rw [ih]
        simp [List.length_append, List.length_take, h3]
termination_by rem.length
decreasing_by simp; omega

/-- C7: for both quantized decoders, decoding fails with `InvalidScale`
exactly when some reached block header — reached meaning: fewer than `N`
elements produced so far, 8 header bytes available, and every earlier
reached header's scale finite and non-zero — carries a non-finite or
zero scale field; in particular a finite non-zero scale never triggers
`InvalidScale`. -/
theorem decode_invalid_scale_iff (bytes dims : List Nat) (_hn : 0 < prodDims dims) :
    (tryDecodeQ4 bytes dims = Except.error DecErr.invalidScale ↔
      ∃ s ∈ q4Reached (prodDims dims) bytes 0, badScaleBits s)
    ∧ (tryDecodeQ5 bytes dims = Except.error DecErr.invalidScale ↔
      ∃ s ∈ q5Reached (prodDims dims) bytes 0, badScaleBits s) :=
  ⟨by simpa [tryDecodeQ4] using q4Loop_invalidScale (prodDims dims) bytes [],
   by simpa [tryDecodeQ5] using q5Loop_invalidScale (prodDims dims) bytes []⟩

/-- C7 witness: the iff at a concrete payload whose first block header
carries scale bits 0 (a zero scale), with `N = prodDims [1] = 1 > 0`. -/
theorem decode_invalid_scale_iff_witness :
    (tryDecodeQ4 (List.replicate 8 0) [1] = Except.error DecErr.invalidScale ↔
      ∃ s ∈ q4Reached (prodDims [1]) (List.replicate 8 0) 0, badScaleBits s)
    ∧ (tryDecodeQ5 (List.replicate 8 0) [1] = Except.error DecErr.invalidScale ↔
      ∃ s ∈ q5Reached (prodDims [1]) (List.replicate 8 0) 0, badScaleBits s) :=
  decode_invalid_scale_iff (List.replicate 8 0) [1] (by decide)

/-- The value of a block of 5-bit levels read low-value-first in base
32 — the number whose LSB-first bit stream the Q5_1 encoder emits. -/
def levelsVal : List Nat → Nat
  | [] => 0
  | v :: vs => v + 32 * levelsVal vs

/-- The first `k` base-32 digits of `n`, least significant first. -/
def digits32 (n k : Nat) : List Nat := (List.range k).map (fun i => n / 32 ^ i % 32)

theorem lor_shl_eq_add (a b n : Nat) (h : a < 2 ^ n) : a ||| (b <<< n) = a + 2 ^ n * b := by
  rw [Nat.shiftLeft_eq, Nat.mul_comm b (2 ^ n), Nat.lor_comm]
  rw [← Nat.mul_add_lt_is_or h b]
  exact Nat.add_comm _ _

theorem nat_and_31 (x : Nat) : x &&& 31 = x % 32 := by
  have hx := Nat.and_pow_two_sub_one_eq_mod x 5
  norm_num at hx
  exact hx

theorem nat_shr_5 (x : Nat) : x >>> 5 = x / 32 := by
  have hx := Nat.shiftRight_eq_div_pow x 5
  norm_num at hx
  exact hx

theorem leVal_append (xs ys : List Nat) :
    leVal (xs ++ ys) = leVal xs + 256 ^ xs.length * leVal ys := by
  induction xs with
  | nil => simp [leVal]
  | cons b bs ih => simp [leVal, ih]; ring

theorem leVal_leBytes (w : Nat) : ∀ n : Nat, leVal (leBytes w n) = n % 256 ^ w := by
  induction w with
  | zero => intro n; simp [leBytes, leVal, Nat.mod_one]
  | succ w ih =>
    intro n
    show leVal (n % 256 :: leBytes w (n / 256)) = n % 256 ^ (w + 1)
    rw [show leVal (n % 256 :: leBytes w (n / 256))
        = n % 256 + 256 * leVal (leBytes w (n / 256)) from rfl]
    rw [ih, pow_succ, Nat.mul_comm (256 ^ w) 256, Nat.mod_mul]

theorem leBytes_lt (w : Nat) : ∀ n : Nat, ∀ b ∈ leBytes w n, b < 256 := by
  induction w with
  | zero => intro n; simp [leBytes]
  | succ w ih =>
    intro n b hb
    simp only [leBytes, List.mem_cons] at hb
    rcases hb with h | h
    · omega
    · exact ih _ _ h

theorem q5PackLoop_bytes_lt : ∀ (vs : List Nat) (buffer bits : Nat),
    ∀ b ∈ q5PackLoop vs buffer bits, b < 256
  | [], buffer, bits => by
    by_cases h : 0 < bits <;> simp [q5PackLoop, h] <;> omega
  | v :: vs, buffer, bits => by
    intro b hb
    simp only [q5PackLoop, q5Flush_spec] at hb
    rcases List.mem_append.mp hb with h | h
    · exact leBytes_lt _ _ _ h
    · exact q5PackLoop_bytes_lt vs _ _ _ h

theorem q5PackLoop_val : ∀ (vs : List Nat) (buffer bits : Nat),
    (∀ v ∈ vs, v < 32) → buffer < 2 ^ bits → bits < 8 →
    leVal (q5PackLoop vs buffer bits) = buffer + 2 ^ bits * levelsVal vs
  | [], buffer, bits, _, hb, hbits => by
    by_cases h : 0 < bits
    · have h256 : buffer < 256 := by
        have hple : (2 : Nat) ^ bits ≤ 2 ^ 7 := Nat.pow_le_pow_right (by norm_num) (by omega)
        have : (2 : Nat) ^ 7 = 128 := by norm_num
        omega
      simp [q5PackLoop, h, leVal, levelsVal]
      omega
    · have hb0 : bits = 0 := by omega
      subst hb0
      norm_num at hb
      simp [q5PackLoop, leVal, levelsVal, hb]
  | v :: vs, buffer, bits, hv, hb, hbits => by
    have hvlt : v < 32 := hv v (by simp)
    have hb2 : buffer ||| (v <<< bits) = buffer + 2 ^ bits * v := lor_shl_eq_add buffer v bits hb
    have hlt2 : buffer + 2 ^ bits * v < 2 ^ (bits + 5) := by
      have h1 : 2 ^ bits * v ≤ 2 ^ bits * 31 := Nat.mul_le_mul_left _ (by omega)
      have h2 : (2 : Nat) ^ (bits + 5) = 2 ^ bits * 32 := by rw [pow_add]; norm_num
      omega
    have hk : 8 * ((bits + 5) / 8) + (bits + 5) % 8 = bits + 5 := Nat.div_add_mod _ 8 ▸ by omega
    have hacc : (buffer ||| v <<< bits) >>> (8 * ((bits + 5) / 8)) < 2 ^ ((bits + 5) % 8) := by
      rw [hb2, Nat.shiftRight_eq_div_pow]
      rw [Nat.div_lt_iff_lt_mul (Nat.pos_pow_of_pos _ (by norm_num))]
      calc buffer + 2 ^ bits * v < 2 ^ (bits + 5) := hlt2
        _ = 2 ^ ((bits + 5) % 8) * 2 ^ (8 * ((bits + 5) / 8)) := by
            rw [← pow_add]
            congr 1
            omega
    have ihyp := q5PackLoop_val vs ((buffer ||| v <<< bits) >>> (8 * ((bits + 5) / 8)))
      ((bits + 5) % 8) (fun u hu => hv u (by simp [hu])) hacc (Nat.mod_lt _ (by norm_num))
    simp only [q5PackLoop, q5Flush_spec]
    rw [leVal_append, leVal_leBytes, leBytes_length, ihyp]
    rw [hb2, Nat.shiftRight_eq_div_pow]
    have hpow : (256 : Nat) ^ ((bits + 5) / 8) = 2 ^ (8 * ((bits + 5) / 8)) := by
      rw [show (256 : Nat) = 2 ^ 8 from by norm_num, ← pow_mul]
    rw [hpow]
    set B2 := buffer + 2 ^ bits * v with hB2
    set K := 8 * ((bits + 5) / 8) with hK
    -- B2 % 2^K + 2^K * (B2 / 2^K + 2^((bits+5)%8) * levelsVal vs)
    --   = buffer + 2^bits * levelsVal (v :: vs)
    rw [Nat.mul_add, ← Nat.add_assoc, Nat.mod_add_div]
    rw [show levelsVal (v :: vs) = v + 32 * levelsVal vs from rfl]
    rw [← Nat.mul_assoc, ← pow_add]
    rw [show K + (bits + 5) % 8 = bits + 5 from by omega]
    rw [pow_add]
    ring

theorem q5Pack_val (levels : List Nat) (h : ∀ v ∈ levels, v < 32) :
    leVal (q5Pack levels) = levelsVal levels := by
  have hx := q5PackLoop_val levels 0 0 h (by norm_num) (by norm_num)
  simpa [q5Pack] using hx

theorem digits32_length (n k : Nat) : (digits32 n k).length = k := by
  simp [digits32]

theorem digits32_zero (m : Nat) : digits32 0 m = List.replicate m 0 := by
  unfold digits32
  simp

theorem digits32_succ (n k : Nat) : digits32 n (k + 1) = n % 32 :: digits32 (n / 32) k := by
  unfold digits32
  rw [List.range_succ_eq_map, List.map_cons, List.map_map]
  congr 1
  · norm_num
  · apply List.map_congr_left
    intro i _
    simp only [Function.comp]
    rw [Nat.div_div_eq_div_mul, pow_succ, Nat.mul_comm (32 ^ i) 32]

theorem digits32_split (a m k j : Nat) :
    digits32 (a + 32 ^ k * m) (k + j) = digits32 a k ++ digits32 (a / 32 ^ k + m) j := by
  unfold digits32
  rw [List.range_add, List.map_append, List.map_map]
  congr 1
  · apply List.map_congr_left
    intro i hi
    have hik : i < k := List.mem_range.mp hi
    have h32 : (32:Nat) ^ k = 32 ^ i * 32 ^ (k - i) := by
      rw [← pow_add]
      congr 1
      omega
    rw [h32, Nat.mul_assoc, Nat.add_mul_div_left _ _ (Nat.pos_pow_of_pos _ (by norm_num))]
    have hki : k - i = (k - i - 1) + 1 := by omega
    rw [hki, pow_succ, Nat.mul_comm (32 ^ (k - i - 1)) 32, Nat.mul_assoc,
      Nat.add_mul_mod_self_left]
  · apply List.map_congr_left
    intro i _
    simp only [Function.comp]
    rw [pow_add, ← Nat.div_div_eq_div_mul,
      Nat.add_mul_div_left _ _ (Nat.pos_pow_of_pos _ (by norm_num))]

theorem q5Extract_spec : ∀ (bits acc : Nat) (values : List Nat),
    acc < 2 ^ bits → values.length + bits / 5 ≤ 32 →
    q5Extract acc bits values
      = (acc >>> (5 * (bits / 5)), bits % 5, values ++ digits32 acc (bits / 5))
  | bits + 5, acc, values, hacc, hcap => by
    by_cases hfull : 32 ≤ (values ++ [acc &&& 31]).length
    · have hlen : 32 ≤ values.length + 1 := by simpa using hfull
      have hd5 : (bits + 5) / 5 ≥ 1 := by omega
      have hd1 : (bits + 5) / 5 = 1 := by omega
      have hb5 : bits < 5 := by omega
      simp only [q5Extract, if_pos hfull]
      have e1 : 5 * ((bits + 5) / 5) = 5 := by omega
      have e2 : (bits + 5) % 5 = bits := by omega
      rw [e1, e2, hd1, digits32_succ]
      rw [show digits32 (acc / 32) 0 = [] from rfl, nat_and_31]
    · have hnext : acc >>> 5 < 2 ^ bits := by
        rw [nat_shr_5, Nat.div_lt_iff_lt_mul (by norm_num)]
        calc acc < 2 ^ (bits + 5) := hacc
          _ = 2 ^ bits * 32 := by rw [pow_add]; norm_num
      have hcap2 : (values ++ [acc &&& 31]).length + bits / 5 ≤ 32 := by
        simp only [List.length_append, List.length_cons, List.length_nil]
        omega
      have ih := q5Extract_spec bits (acc >>> 5) (values ++ [acc &&& 31]) hnext hcap2
      simp only [q5Extract, if_neg hfull]
      rw [ih]
      have e1 : 5 * ((bits + 5) / 5) = 5 + 5 * (bits / 5) := by omega
      have e2 : (bits + 5) % 5 = bits % 5 := by omega
      have e3 : (bits + 5) / 5 = bits / 5 + 1 := by omega
      rw [e1, e2, e3, ← Nat.shiftRight_add, digits32_succ, List.append_assoc]
      rw [nat_and_31, nat_shr_5]
      rfl
  | 0, acc, values, _, _ => by
    show (acc, 0, values) = (acc >>> (5 * (0 / 5)), 0 % 5, values ++ digits32 acc (0 / 5))
    simp [digits32]
  | 1, acc, values, _, _ => by
    show (acc, 1, values) = (acc >>> (5 * (1 / 5)), 1 % 5, values ++ digits32 acc (1 / 5))
    simp [digits32]
  | 2, acc, values, _, _ => by
    show (acc, 2, values) = (acc >>> (5 * (2 / 5)), 2 % 5, values ++ digits32 acc (2 / 5))
    simp [digits32]
  | 3, acc, values, _, _ => by
    show (acc, 3, values) = (acc >>> (5 * (3 / 5)), 3 % 5, values ++ digits32 acc (3 / 5))
    simp [digits32]
  | 4, acc, values, _, _ => by
    show (acc, 4, values) = (acc >>> (5 * (4 / 5)), 4 % 5, values ++ digits32 acc (4 / 5))
    simp [digits32]

theorem q5UnpackLoop_spec : ∀ (bytes : List Nat) (acc bits : Nat) (values : List Nat),
    (∀ b ∈ bytes, b < 256) → acc < 2 ^ bits → bits < 5 →
    values.length + (bits + 8 * bytes.length) / 5 ≤ 32 →
    q5UnpackLoop bytes acc bits values
      = values ++ digits32 (acc + 2 ^ bits * leVal bytes) ((bits + 8 * bytes.length) / 5)
  | [], acc, bits, values, _, _, hb5, _ => by
    have h0 : (bits + 8 * ([] : List Nat).length) / 5 = 0 := by simp; omega
    rw [h0]
    simp [q5UnpackLoop, digits32, leVal]
  | b :: rest, acc, bits, values, hbs, hacc, hb5, hcap => by
    have hblt : b < 256 := hbs b (by simp)
    have hor : acc ||| (b <<< bits) = acc + 2 ^ bits * b := lor_shl_eq_add _ _ _ hacc
    have hacc2 : acc + 2 ^ bits * b < 2 ^ (bits + 8) := by
      have h1 : 2 ^ bits * b ≤ 2 ^ bits * 255 := Nat.mul_le_mul_left _ (by omega)
      have h2 : (2:Nat) ^ (bits + 8) = 2 ^ bits * 256 := by rw [pow_add]; norm_num
      omega
    have hcapE : values.length + (bits + 8) / 5 ≤ 32 := by
      have hm : (bits + 8) / 5 ≤ (bits + 8 * (b :: rest).length) / 5 := by
        apply Nat.div_le_div_right
        simp only [List.length_cons]
        omega
      omega
    have hE := q5Extract_spec (bits + 8) (acc ||| (b <<< bits)) values
      (by rw [hor]; exact hacc2) hcapE
    simp only [q5UnpackLoop]
    rw [hE]
    have hacc3 : (acc ||| b <<< bits) >>> (5 * ((bits + 8) / 5)) < 2 ^ ((bits + 8) % 5) := by
      rw [hor, Nat.shiftRight_eq_div_pow,
        Nat.div_lt_iff_lt_mul (Nat.pos_pow_of_pos _ (by norm_num))]
      calc acc + 2 ^ bits * b < 2 ^ (bits + 8) := hacc2
        _ = 2 ^ ((bits + 8) % 5) * 2 ^ (5 * ((bits + 8) / 5)) := by
            rw [← pow_add]
            congr 1
            omega
    have hcap3 : (values ++ digits32 (acc ||| b <<< bits) ((bits + 8) / 5)).length
        + ((bits + 8) % 5 + 8 * rest.length) / 5 ≤ 32 := by
      simp only [List.length_append, digits32_length]
      have hs : (bits + 8) / 5 + ((bits + 8) % 5 + 8 * rest.length) / 5
          = (bits + 8 * (b :: rest).length) / 5 := by
        simp only [List.length_cons]
        omega
      omega
    have ih := q5UnpackLoop_spec rest ((acc ||| b <<< bits) >>> (5 * ((bits + 8) / 5)))
      ((bits + 8) % 5) (values ++ digits32 (acc ||| b <<< bits) ((bits + 8) / 5))
      (fun u hu => hbs u (by simp [hu])) hacc3 (Nat.mod_lt _ (by norm_num)) hcap3
    rw [ih, List.append_assoc]
    congr 1
    rw [hor, Nat.shiftRight_eq_div_pow]
    have h32k : (2:Nat) ^ (5 * ((bits + 8) / 5)) = 32 ^ ((bits + 8) / 5) := by
      rw [show (32:Nat) = 2 ^ 5 from by norm_num, ← pow_mul]
    rw [h32k, ← digits32_split]
    have hval : acc + 2 ^ bits * b + 32 ^ ((bits + 8) / 5) * (2 ^ ((bits + 8) % 5) * leVal rest)
        = acc + 2 ^ bits * leVal (b :: rest) := by
      rw [show leVal (b :: rest) = b + 256 * leVal rest from rfl]
      rw [← Nat.mul_assoc, ← h32k, ← pow_add]
      rw [show 5 * ((bits + 8) / 5) + (bits + 8) % 5 = bits + 8 from by omega]
      rw [show (2:Nat) ^ (bits + 8) = 2 ^ bits * 256 from by rw [pow_add]; norm_num]
      ring
    have hcnt : (bits + 8) / 5 + ((bits + 8) % 5 + 8 * rest.length) / 5
        = (bits + 8 * (b :: rest).length) / 5 := by
      simp only [List.length_cons]
      omega
    rw [hval, hcnt]

theorem digits32_levelsVal : ∀ (levels : List Nat) (m : Nat), (∀ v ∈ levels, v < 32) →
    levels.length ≤ m →
    digits32 (levelsVal levels) m = levels ++ List.replicate (m - levels.length) 0
  | [], m, _, _ => by simp [levelsVal, digits32_zero]
  | v :: vs, m, hv, hm => by
    obtain ⟨m2, rfl⟩ : ∃ m2, m = m2 + 1 := by
      refine ⟨m - 1, ?_⟩
      simp only [List.length_cons] at hm
      omega
    have hvlt : v < 32 := hv v (by simp)
    rw [show levelsVal (v :: vs) = v + 32 * levelsVal vs from rfl]
    rw [digits32_succ, Nat.add_mul_mod_self_left, Nat.mod_eq_of_lt hvlt]
    rw [Nat.add_mul_div_left _ _ (by norm_num : (0:Nat) < 32), Nat.div_eq_of_lt hvlt,
      Nat.zero_add]
    rw [digits32_levelsVal vs m2 (fun u hu => hv u (by simp [hu]))
      (by simp only [List.length_cons] at hm; omega)]
    have hcnt2 : m2 + 1 - (v :: vs).length = m2 - vs.length := by
      simp only [List.length_cons]
      omega
    rw [hcnt2, List.cons_append]

/-- C6 (counterexample): packing the two 5-bit levels `[1, 1]` uses 10
bits, the encoder pads the final byte with zero bits, and the decoder's
accumulator extracts a third (zero) 5-bit value from that padding — the
unpacked sequence is `[1, 1, 0]`, not the original `[1, 1]`. -/
theorem q5_unpack_pack_extra_zero :
    q5Unpack (q5Pack [1, 1]) = [1, 1, 0] ∧ ([1, 1, 0] : List Nat) ≠ [1, 1] := by
  constructor
  · decide
  · decide

/-- C6 (amended): for a block of `k ≤ 32` five-bit levels, unpacking
the packed bytes yields the original levels in the same low-value-first
order, followed by exactly `⌊8·⌈5k/8⌉/5⌋ - k` zero values extracted
from the final byte's padding bits.  That tail count is `⌊pad/5⌋` for
`pad = 8·⌈5k/8⌉ - 5k` bits of padding, so the round-trip is exact when
the padding is under 5 bits (e.g. `k = 1`, `k = 3`, or a full 32-level
block) and gains zero values otherwise (e.g. `k = 2` unpacks to one
extra zero). -/
theorem q5_pack_unpack_spec (levels : List Nat) (h1 : ∀ v ∈ levels, v < 32)
    (h2 : levels.length ≤ 32) :
    q5Unpack (q5Pack levels)
      = levels ++ List.replicate (8 * ((5 * levels.length + 7) / 8) / 5 - levels.length) 0 := by
  have hlen0 := q5PackLoop_length levels 0 0 (by norm_num)
  have hlen : (q5PackLoop levels 0 0).length = (5 * levels.length + 7) / 8 := by
    rw [hlen0]
    omega
  have hval : leVal (q5PackLoop levels 0 0) = levelsVal levels := q5Pack_val levels h1
  have hbytes := q5PackLoop_bytes_lt levels 0 0
  have hcap : ([] : List Nat).length + (0 + 8 * (q5PackLoop levels 0 0).length) / 5 ≤ 32 := by
    rw [hlen]
    simp only [List.length_nil, Nat.zero_add]
    omega
  have hu := q5UnpackLoop_spec (q5PackLoop levels 0 0) 0 0 [] hbytes (by norm_num)
    (by norm_num) hcap
  rw [show q5Unpack (q5Pack levels) = q5UnpackLoop (q5PackLoop levels 0 0) 0 0 [] from rfl]
  rw [hu]
  simp only [List.nil_append, pow_zero, Nat.one_mul, Nat.zero_add]
  rw [hval, hlen]
  exact digits32_levelsVal levels _ h1 (by omega)

/-- C6 witness: the amended round-trip at the concrete block
`[1, 2, 3]`. -/
theorem q5_pack_unpack_spec_witness :
    q5Unpack (q5Pack [1, 2, 3])
      = [1, 2, 3]
        ++ List.replicate (8 * ((5 * [1, 2, 3].length + 7) / 8) / 5 - [1, 2, 3].length) 0 :=
  q5_pack_unpack_spec [1, 2, 3] (by decide) (by decide)

end GGUF
